import Mathlib

/-!
# Verification of the FFT_demo signal-processing pipeline

A shallow embedding, in Lean 4, of the signal-processing core of the
FFT_demo repository: the `FFTProcessor` static class
(`src/js/processing/fft.js`) and the `SpectralAnalyzer` class
(advanced spectral analysis utilities; the later revision with
`fftSize = 512`, `overlap = 0.9`).

Modelling conventions:
* JavaScript numbers are modelled as exact real numbers (`ℝ`).
  Floating-point rounding is outside the scope of this development.
* A JavaScript value that is `NaN` (or an aborted computation such as a
  thrown `RangeError`) is modelled with `Option`: `none` stands for the
  abnormal outcome, `some x` for a normal real result.  Each place where
  a `none` is produced carries a comment naming the JavaScript behaviour
  it models.
* `Math.pow(2, Math.ceil(Math.log2(n)))` is modelled with `Nat.clog`,
  the ceiling base-2 logarithm; the lemma `nextPowerOf2_eq_ceil_logb`
  certifies that this agrees with the real-logarithm formula.
* Array indexing inside loops whose bounds keep the index in range is
  modelled with `List.getD`; indexing that can fall out of range in JS
  (yielding `undefined`, hence `NaN` in arithmetic) is modelled with
  `List.get?`.
-/

open Real

namespace FFTProcessor

/-- One detected spectral peak: a (frequency, magnitude, phase) triple. -/
structure Peak where
  frequency : ℝ
  magnitude : ℝ
  phase : ℝ

/-- The options record passed to `computeFFT`. -/
structure FFTOptions where
  windowType : String
  sampleRate : ℝ
  peakThreshold : ℝ

/-- The record returned by `computeFFT`. -/
structure FFTResult where
  frequencies : List ℝ
  magnitudes : List ℝ
  phases : List ℝ
  peaks : List Peak

/-- `nextPowerOf2(n) = Math.pow(2, Math.ceil(Math.log2(n)))`.
For `n = 0`, `Math.log2(0)` is `-Infinity` and the JS expression evaluates
to `0`; for `n ≥ 1` the exact value of the expression is `2 ^ ⌈log₂ n⌉`,
which is `2 ^ Nat.clog 2 n` (see `nextPowerOf2_eq_ceil_logb`). -/
def nextPowerOf2 (n : ℕ) : ℕ :=
  if n = 0 then 0 else 2 ^ Nat.clog 2 n

/-- `padSignal`: right-pad with zeros to `targetLength`; a signal already at
least that long is returned unchanged. -/
def padSignal (signal : List ℝ) (targetLength : ℕ) : List ℝ :=
  if targetLength ≤ signal.length then signal
  else signal ++ List.replicate (targetLength - signal.length) 0

/-- The per-sample weight computed by the `switch` inside `applyWindow`,
for the window kinds that reach the multiplication loop.  The divisor
`n - 1` is the real-number difference `(n : ℝ) - 1`, as in JS. -/
noncomputable def windowValue (windowType : String) (n i : ℕ) : ℝ :=
  if windowType = "rectangular" then 1
  else if windowType = "hamming" then
    0.54 - 0.46 * Real.cos (2 * π * i / ((n : ℝ) - 1))
  else if windowType = "hanning" then
    0.5 * (1 - Real.cos (2 * π * i / ((n : ℝ) - 1)))
  else if windowType = "blackman" then
    0.42 - 0.5 * Real.cos (2 * π * i / ((n : ℝ) - 1))
      + 0.08 * Real.cos (4 * π * i / ((n : ℝ) - 1))
  else if windowType = "kaiser" then
    Real.sqrt (1 - (2 * i / ((n : ℝ) - 1) - 1) * (2 * i / ((n : ℝ) - 1) - 1))
  else 0

/-- `applyWindow(signal, windowType)`.
`'none'` returns the signal unchanged; an unrecognized window type hits the
`default` branch of the `switch` and also returns the signal unchanged.
For the remaining kinds the signal is multiplied pointwise by the window.
When `n = 1` the divisor `n - 1` is `0`; for every kind except
`'rectangular'` JS then computes `0/0 = NaN` inside the window formula and
every output sample is `NaN`.  That NaN-poisoned output is modelled as
`none`. -/
noncomputable def applyWindow (signal : List ℝ) (windowType : String) :
    Option (List ℝ) :=
  if windowType = "none" then some signal
  else if windowType ∈ ["hamming", "hanning", "blackman", "kaiser"] ∧
      signal.length = 1 then
    none
  else if windowType ∈ ["rectangular", "hamming", "hanning", "blackman",
      "kaiser"] then
    some ((List.range signal.length).map fun i =>
      signal.getD i 0 * windowValue windowType signal.length i)
  else some signal

/-- The even-indexed entries of a list (`input[0], input[2], …`). -/
def evens : List α → List α
  | [] => []
  | [x] => [x]
  | x :: _ :: rest => x :: evens rest

/-- The odd-indexed entries of a list (`input[1], input[3], …`). -/
def odds : List α → List α
  | [] => []
  | [_] => []
  | _ :: y :: rest => y :: odds rest

theorem evens_length : ∀ l : List α, (evens l).length = (l.length + 1) / 2
  | [] => by simp [evens]
  | [_] => by simp [evens]
  | _ :: _ :: rest => by
    simp only [evens, List.length_cons, evens_length rest]
    omega

theorem odds_length : ∀ l : List α, (odds l).length = l.length / 2
  | [] => by simp [odds]
  | [_] => by simp [odds]
  | _ :: _ :: rest => by
    simp only [odds, List.length_cons, odds_length rest]
    omega

/-- Real part of the twiddle factor `e^{-2πik/n}`. -/
noncomputable def twiddleRe (n k : ℕ) : ℝ := Real.cos (-2 * π * k / n)

/-- Imaginary part of the twiddle factor `e^{-2πik/n}`. -/
noncomputable def twiddleIm (n k : ℕ) : ℝ := Real.sin (-2 * π * k / n)

/-- The combine loop of `fft`: `result[k] = even[k] + t`,
`result[k + n/2] = even[k] - t` with `t` the twiddled odd entry, written as
first half followed by second half. -/
noncomputable def combineHalves (evenFFT oddFFT : List (ℝ × ℝ)) (n : ℕ) :
    List (ℝ × ℝ) :=
  ((List.range (n / 2)).map fun k =>
    ((evenFFT.getD k (0, 0)).1 +
       (twiddleRe n k * (oddFFT.getD k (0, 0)).1 -
        twiddleIm n k * (oddFFT.getD k (0, 0)).2),
     (evenFFT.getD k (0, 0)).2 +
       (twiddleRe n k * (oddFFT.getD k (0, 0)).2 +
        twiddleIm n k * (oddFFT.getD k (0, 0)).1))) ++
  ((List.range (n / 2)).map fun k =>
    ((evenFFT.getD k (0, 0)).1 -
       (twiddleRe n k * (oddFFT.getD k (0, 0)).1 -
        twiddleIm n k * (oddFFT.getD k (0, 0)).2),
     (evenFFT.getD k (0, 0)).2 -
       (twiddleRe n k * (oddFFT.getD k (0, 0)).2 +
        twiddleIm n k * (oddFFT.getD k (0, 0)).1)))

/-- Recursive radix-2 decimation-in-time Cooley-Tukey `fft` on complex
`[re, im]` pairs.  The base case `n ≤ 1` returns the input unchanged.
For odd `n ≥ 3` the JS code evaluates `Array(n/2)` with a fractional
length, which throws a `RangeError`; this abnormal exit is modelled as
`none` (such lengths are never produced by `computeFFT`, which pads to a
power of two). -/
noncomputable def fft (input : List (ℝ × ℝ)) : Option (List (ℝ × ℝ)) :=
  if _h1 : input.length ≤ 1 then some input
  else if _h2 : input.length % 2 ≠ 0 then none
  else
    match fft (evens input), fft (odds input) with
    | some evenFFT, some oddFFT =>
      some (combineHalves evenFFT oddFFT input.length)
    | _, _ => none
termination_by input.length
decreasing_by
  · simp only [evens_length]; omega
  · simp only [odds_length]; omega

/-- `calculateFrequencies(n, sampleRate)`: the array
`[0·df, 1·df, …]` of length `n/2` with `df = sampleRate / n`.
For odd `n` (only `n = 1` is reachable, from a one-sample signal)
`new Array(n/2)` has fractional length and throws a `RangeError`,
modelled as `none`. -/
noncomputable def calculateFrequencies (n : ℕ) (sampleRate : ℝ) :
    Option (List ℝ) :=
  if n % 2 ≠ 0 then none
  else some ((List.range (n / 2)).map fun (i : ℕ) =>
    (i : ℝ) * (sampleRate / n))

/-- JS `Math.atan2(y, x)`, which is the argument of the complex number
`x + iy` (with `Math.atan2(0, 0) = 0 = Complex.arg 0`). -/
noncomputable def jsAtan2 (y x : ℝ) : ℝ := Complex.arg ⟨x, y⟩

/-- `calculateMagnitudesAndPhases(fftResult)`: for `i < n/2`,
`magnitude[i] = sqrt(re² + im²) / n` and `phase[i] = atan2(im, re)·180/π`
(degrees).  As in `calculateFrequencies`, an odd `n` makes
`new Array(n/2)` throw, modelled as `none`. -/
noncomputable def calculateMagnitudesAndPhases (fftResult : List (ℝ × ℝ)) :
    Option (List ℝ × List ℝ) :=
  let n := fftResult.length
  if n % 2 ≠ 0 then none
  else some
    ((List.range (n / 2)).map fun i =>
      Real.sqrt ((fftResult.getD i (0, 0)).1 * (fftResult.getD i (0, 0)).1 +
        (fftResult.getD i (0, 0)).2 * (fftResult.getD i (0, 0)).2) / n,
     (List.range (n / 2)).map fun i =>
      jsAtan2 (fftResult.getD i (0, 0)).2 (fftResult.getD i (0, 0)).1
        * 180 / π)

/-- `detectPeaks(frequencies, magnitudes, phases, threshold)`.
An interior bin `1 ≤ i < len - 1` is collected when its magnitude strictly
exceeds `maxMagnitude · threshold/100` and both neighbours; the collected
peaks are then sorted by `(a, b) => b.magnitude - a.magnitude`, i.e. by
descending magnitude.  `Array.prototype.sort` is stable, so the sort is
modelled with `List.mergeSort`.  On an empty magnitude array
`Math.max(...)` is `-Infinity`, but the scan range `1 ≤ i < -1` is empty
and the result is `[]` regardless. -/
noncomputable def detectPeaks (frequencies magnitudes phases : List ℝ)
    (threshold : ℝ) : List Peak :=
  match magnitudes with
  | [] => []
  | m0 :: rest =>
    let maxMagnitude := rest.foldl max m0
    let thresholdValue := maxMagnitude * (threshold / 100)
    let mags := m0 :: rest
    (((List.range mags.length).filterMap fun i =>
      if 1 ≤ i ∧ i < mags.length - 1 ∧
          thresholdValue < mags.getD i 0 ∧
          mags.getD (i - 1) 0 < mags.getD i 0 ∧
          mags.getD (i + 1) 0 < mags.getD i 0 then
        some { frequency := frequencies.getD i 0,
               magnitude := mags.getD i 0,
               phase := phases.getD i 0 }
      else none)).mergeSort fun a b => decide (b.magnitude ≤ a.magnitude)

/-- `computeFFT(signal, options)`: window, pad to the next power of two,
lift to complex, FFT, then derive frequencies, magnitudes, phases and
peaks.  Every abnormal JS exit (a thrown `RangeError`, or the NaN-poisoned
windowed signal of a one-sample input, which in JS is immediately followed
by the same `RangeError` because the padded length is `1`) is `none`. -/
noncomputable def computeFFT (signal : List ℝ) (options : FFTOptions) :
    Option FFTResult :=
  match applyWindow signal options.windowType with
  | none => none
  | some windowedSignal =>
    let paddedLength := nextPowerOf2 signal.length
    let paddedSignal := padSignal windowedSignal paddedLength
    let complexSignal := paddedSignal.map fun x => (x, (0 : ℝ))
    match fft complexSignal with
    | none => none
    | some fftResult =>
      match calculateFrequencies paddedLength options.sampleRate with
      | none => none
      | some frequencies =>
        match calculateMagnitudesAndPhases fftResult with
        | none => none
        | some (magnitudes, phases) =>
          some { frequencies := frequencies,
                 magnitudes := magnitudes,
                 phases := phases,
                 peaks := detectPeaks frequencies magnitudes phases
                   options.peakThreshold }

end FFTProcessor

namespace SpectralAnalyzer

open FFTProcessor

/-- The instance configuration set in the constructor.  The later revision
of the analyzer uses `fftSize = 512`, `overlap = 0.9`; the overlap is kept
as an exact rational so that `Math.floor` is computable.  (In binary
floating point `512 * (1 - 0.9)` is `51.19999999999999…`, whose floor is
`51`, the same as the exact value `⌊51.2⌋`.) -/
structure AnalyzerConfig where
  fftSize : ℕ
  overlap : ℚ

/-- The constructor values of the later `SpectralAnalyzer` revision. -/
def cfg512 : AnalyzerConfig := { fftSize := 512, overlap := 9 / 10 }

/-- `hopSize = Math.max(1, Math.floor(segmentSize * (1 - overlap)))`. -/
def hopSize (cfg : AnalyzerConfig) : ℕ :=
  max 1 (Int.toNat ⌊(cfg.fftSize : ℚ) * (1 - cfg.overlap)⌋)

/-- `new Float32Array(n)` followed by `segment.set(data)`: zeros with the
data written over the prefix.  At every call site `data` has at most `n`
samples (a longer source would make `set` throw). -/
def zeroPadTo (n : ℕ) (data : List ℝ) : List ℝ :=
  data ++ List.replicate (n - data.length) 0

/-- The long-signal loop of `_segmentSignal`:
`for (i = 0; i < signal.length - hopSize; i += hopSize)` pushing the
zero-padded window `signal.slice(i, min(i + segmentSize, length))` each
iteration.  The hop is passed as `hp1 + 1` so that it is positive by
construction (`hopSize` is `max 1 …`). -/
def segLoop (signal : List ℝ) (segmentSize hp1 i : ℕ) : List (List ℝ) :=
  if i < signal.length - (hp1 + 1) then
    zeroPadTo segmentSize ((signal.drop i).take segmentSize) ::
      segLoop signal segmentSize hp1 (i + (hp1 + 1))
  else []
termination_by signal.length - (hp1 + 1) - i
decreasing_by omega

/-- `_segmentSignal(signal)`.  A signal no longer than one segment takes
the short-signal branch, producing `max(10, ⌊length/hopSize⌋)` synthetic
frames whose start indices are clamped to `length - 1`; a longer signal
takes the sliding-window loop `segLoop`.  (For the empty signal the JS
start index is `min(…, -1) = -1` and `slice(-1)` of an empty array is
empty; `ℕ`-truncation `0 - 1 = 0` gives the same empty slice.)  The
`try`/`catch` around the body can only be reached by a thrown exception,
which nothing in the body can raise, so it is not modelled. -/
def _segmentSignal (cfg : AnalyzerConfig) (signal : List ℝ) :
    List (List ℝ) :=
  let segmentSize := cfg.fftSize
  let h := hopSize cfg
  if signal.length ≤ segmentSize then
    let numSegments := max 10 (signal.length / h)
    (List.range numSegments).map fun i =>
      zeroPadTo segmentSize (signal.drop (min (i * h) (signal.length - 1)))
  else
    segLoop signal segmentSize (h - 1) 0

/-- `_applyWindow(segment, windowType)`: pointwise multiplication by the
Hanning weight (any other window type falls to the `default` branch with
weight `1`).  All call sites pass segments of length `fftSize ≥ 2`; for a
hypothetical one-sample segment JS would compute `0/0 = NaN`, a case this
real-valued model does not represent because no caller can reach it. -/
noncomputable def _applyWindow (segment : List ℝ) (windowType : String) :
    List ℝ :=
  (List.range segment.length).map fun i =>
    segment.getD i 0 *
      (if windowType = "hanning" then
        0.5 * (1 - Real.cos (2 * π * i / ((segment.length : ℝ) - 1)))
      else 1)

/-- `_computeFFT(signal)` of the later revision: run
`FFTProcessor.computeFFT` with window `'none'`, sample rate `fftSize` and
threshold `0`, then rebuild complex values
`{real: mag·cos φ, imag: mag·sin φ}` from each magnitude and phase
(the phase is converted from degrees back to radians).  A null/empty
signal, or a thrown error (caught by the surrounding `try`), yields
`null`, modelled as `none`. -/
noncomputable def _computeFFT (cfg : AnalyzerConfig) (signal : List ℝ) :
    Option (List (ℝ × ℝ)) :=
  if signal.length = 0 then none
  else
    match computeFFT signal
        { windowType := "none", sampleRate := (cfg.fftSize : ℝ),
          peakThreshold := 0 } with
    | none => none
    | some result =>
      some ((List.range result.magnitudes.length).map fun i =>
        (result.magnitudes.getD i 0 *
           Real.cos (result.phases.getD i 0 * π / 180),
         result.magnitudes.getD i 0 *
           Real.sin (result.phases.getD i 0 * π / 180)))

/-- JS `Math.abs` applied to a `{real, imag}` record: `ToNumber` of a
plain object is `NaN`, so the result is `NaN` — modelled as `none`.
This is the heart of the `computePSD` defect: the later revision of
`_computeFFT` returns complex records, but `computePSD` still treats the
entries as numbers. -/
def jsAbsOfComplexRecord (_c : ℝ × ℝ) : Option ℝ := none

/-- JS addition where either operand may be `NaN`. -/
noncomputable def jsAdd (a b : Option ℝ) : Option ℝ :=
  match a, b with
  | some x, some y => some (x + y)
  | _, _ => none

/-- JS `Math.pow(x, 2)`; `NaN` squares to `NaN`. -/
noncomputable def jsPow2 (a : Option ℝ) : Option ℝ := a.map fun x => x * x

/-- JS division of a possibly-`NaN` sum by a frame count (the count is
positive at the call site, so the divisor is never `0`). -/
noncomputable def jsDivCount (a : Option ℝ) (n : ℕ) : Option ℝ :=
  a.map fun x => x / n

/-- The record returned by `computePSD`; the PSD entries may be `NaN`. -/
structure PSDResult where
  frequencies : List ℝ
  psd : List (Option ℝ)

/-- `computePSD(signal, sampleRate)`: frame, Hanning-window, per-frame
`_computeFFT`, then `psd[i] = (Σ_frames |fft[i]|²) / frameCount` and
`frequencies[i] = i · sampleRate / fftSize`.  If some frame's
`_computeFFT` returned `null`, the reduce would index into `null` and
throw a `TypeError`; that abnormal exit is modelled as `none`. -/
noncomputable def computePSD (cfg : AnalyzerConfig) (signal : List ℝ)
    (sampleRate : ℝ) : Option PSDResult :=
  let segments := _segmentSignal cfg signal
  let windowedSegments := segments.map fun seg => _applyWindow seg "hanning"
  match windowedSegments.mapM (_computeFFT cfg) with
  | none => none
  | some ffts =>
    some { psd := (List.range (cfg.fftSize / 2)).map fun i =>
             jsDivCount
               (ffts.foldl
                 (fun sum fftRow =>
                   jsAdd sum (jsPow2 (jsAbsOfComplexRecord
                     (fftRow.getD i (0, 0)))))
                 (some 0))
               ffts.length,
           frequencies := (List.range (cfg.fftSize / 2)).map
             fun (i : ℕ) => (i : ℝ) * sampleRate / cfg.fftSize }

/-- The record returned by `computeSpectrogram`. -/
structure SpectrogramResult where
  data : List (List ℝ)
  frequencies : List ℝ
  timeSteps : ℕ
  timeResolution : ℝ

/-- `computeSpectrogram(signal, sampleRate)` of the later revision:
reject falsy inputs (`!sampleRate` rejects a zero rate; a list signal is
never `null`, and even `[]` is truthy), zero-pad a short signal to one
full segment, frame it, then for each frame window with Hanning, FFT, and
convert each magnitude to dB with
`magnitude ≤ 1e-10 ? -100 : 20·log10(magnitude)`.  Frames whose FFT fails
are skipped (`continue`); if no frame survives, or segmentation produced
nothing, the function returns `null` (`none`). -/
noncomputable def computeSpectrogram (cfg : AnalyzerConfig)
    (signal : List ℝ) (sampleRate : ℝ) : Option SpectrogramResult :=
  if sampleRate = 0 then none
  else
    let paddedSignal :=
      if signal.length < cfg.fftSize then
        signal ++ List.replicate (cfg.fftSize - signal.length) 0
      else signal
    let segments := _segmentSignal cfg paddedSignal
    if segments = [] then none
    else
      let spectrogramData := segments.filterMap fun segment =>
        match computeFFT (_applyWindow segment "hanning")
            { windowType := "none", sampleRate := (cfg.fftSize : ℝ),
              peakThreshold := 0 } with
        | none => none
        | some result =>
          some ((result.magnitudes.take (cfg.fftSize / 2)).map
            fun magnitude =>
              if magnitude ≤ 1 / 10 ^ 10 then -100
              else 20 * Real.logb 10 magnitude)
      if spectrogramData = [] then none
      else
        some { data := spectrogramData,
               frequencies := (List.range (cfg.fftSize / 2)).map
                 fun (i : ℕ) => (i : ℝ) * sampleRate / cfg.fftSize,
               timeSteps := spectrogramData.length,
               timeResolution :=
                 (cfg.fftSize : ℝ) * (1 - (cfg.overlap : ℝ)) / sampleRate }

/-- `computeCrossCorrelation(signal1, signal2)`: brute-force correlation
over lags `-(n-1) … n-1` with `n = signal1.length`.  The in-range guard
`0 ≤ i - lag < n` uses `signal1`'s length, so when `signal2` is shorter
the access `signal2[i - lag]` is `undefined` and the accumulated sum is
`NaN` — modelled with `List.get?` and NaN-propagating `jsAdd`.  For an
empty first signal `new Float32Array(2·0 - 1)` throws a `RangeError`,
modelled as `none`. -/
noncomputable def computeCrossCorrelation (signal1 signal2 : List ℝ) :
    Option (List (Option ℝ)) :=
  let n := signal1.length
  if n = 0 then none
  else
    some ((List.range (2 * n - 1)).map fun idx =>
      let lag : ℤ := (idx : ℤ) - ((n : ℤ) - 1)
      (List.range n).foldl
        (fun sum (i : ℕ) =>
          if 0 ≤ (i : ℤ) - lag ∧ (i : ℤ) - lag < (n : ℤ) then
            jsAdd sum
              ((signal2.get? ((i : ℤ) - lag).toNat).map
                fun y => signal1.getD i 0 * y)
          else sum)
        (some 0))

end SpectralAnalyzer

/-! ## Properties of `nextPowerOf2` -/

namespace FFTProcessor

/-- For `n ≥ 1` the ceiling real logarithm in the source expression
`Math.pow(2, Math.ceil(Math.log2(n)))` coincides with `Nat.clog 2 n`,
certifying the `Nat.clog` form of `nextPowerOf2` against the source. -/
theorem ceil_logb_two_eq_clog (n : ℕ) :
    ⌈Real.logb 2 (n : ℝ)⌉ = Nat.clog 2 n := by
  have h := Real.ceil_logb_natCast (b := 2) (r := (n : ℝ)) (Nat.cast_nonneg n)
  rw [Nat.cast_ofNat] at h
  rw [h, Int.clog_natCast]

theorem nextPowerOf2_eq_ceil_logb (n : ℕ) (hn : n ≠ 0) :
    nextPowerOf2 n = 2 ^ (⌈Real.logb 2 (n : ℝ)⌉.toNat) := by
  rw [nextPowerOf2, if_neg hn, ceil_logb_two_eq_clog, Int.toNat_natCast]

theorem nextPowerOf2_pow (k : ℕ) : nextPowerOf2 (2 ^ k) = 2 ^ k := by
  have h : (2 : ℕ) ^ k ≠ 0 := by positivity
  rw [nextPowerOf2, if_neg h, Nat.clog_pow 2 k (by norm_num)]

theorem le_nextPowerOf2 (n : ℕ) : n ≤ nextPowerOf2 n := by
  rw [nextPowerOf2]
  by_cases h : n = 0
  · simp [h]
  · rw [if_neg h]
    exact Nat.le_pow_clog (by norm_num) n

theorem nextPowerOf2_even_of_two_le (n : ℕ) (h : 2 ≤ n) :
    nextPowerOf2 n % 2 = 0 ∧ ∃ k, 1 ≤ k ∧ nextPowerOf2 n = 2 ^ k := by
  have hpos : 0 < Nat.clog 2 n := Nat.clog_pos (by norm_num) h
  have hn0 : n ≠ 0 := by omega
  rw [nextPowerOf2, if_neg hn0]
  refine ⟨?_, Nat.clog 2 n, hpos, rfl⟩
  obtain ⟨m, hm⟩ : ∃ m, Nat.clog 2 n = m + 1 := ⟨Nat.clog 2 n - 1, by omega⟩
  rw [hm, pow_succ]
  omega

end FFTProcessor

namespace FFTProcessor

/-- Claim C9.  For every `N` that is a power of two, `nextPowerOf2 N = N`;
for every `N` with `2^(k-1) < N ≤ 2^k`, `nextPowerOf2 N = 2^k`. -/
theorem claim_C9_nextPowerOf2 (N k : ℕ) :
    (N = 2 ^ k → nextPowerOf2 N = N) ∧
    (2 ^ (k - 1) < N → N ≤ 2 ^ k → nextPowerOf2 N = 2 ^ k) := by
  constructor
  · rintro rfl
    exact nextPowerOf2_pow k
  · intro hlt hle
    have hpos : 0 < 2 ^ (k - 1) := by positivity
    have hN0 : N ≠ 0 := by omega
    rw [nextPowerOf2, if_neg hN0]
    have h1 : Nat.clog 2 N ≤ k := (Nat.le_pow_iff_clog_le (by norm_num)).mp hle
    have h2 : k - 1 < Nat.clog 2 N :=
      (Nat.pow_lt_iff_lt_clog (by norm_num)).mp hlt
    have hk : Nat.clog 2 N = k := by omega
    rw [hk]

/-- Witness for C9 at `N = 8 = 2^3` and at `N = 5` with `4 < 5 ≤ 8`. -/
theorem claim_C9_nextPowerOf2_witness :
    nextPowerOf2 8 = 8 ∧
    (2 ^ (3 - 1) < 5 ∧ 5 ≤ 2 ^ 3 ∧ nextPowerOf2 5 = 2 ^ 3) :=
  ⟨(claim_C9_nextPowerOf2 8 3).1 (by norm_num), by norm_num, by norm_num,
    (claim_C9_nextPowerOf2 5 3).2 (by norm_num) (by norm_num)⟩

/-! ## The FFT of the all-zero input -/

theorem evens_replicate :
    ∀ (n : ℕ) (z : α), evens (List.replicate n z) =
      List.replicate ((n + 1) / 2) z
  | 0, z => by simp [evens]
  | 1, z => by simp [evens]
  | (n + 2), z => by
    rw [List.replicate_succ, List.replicate_succ]
    simp only [evens, evens_replicate n z]
    rw [show (n + 2 + 1) / 2 = (n + 1) / 2 + 1 by omega, List.replicate_succ]

theorem odds_replicate :
    ∀ (n : ℕ) (z : α), odds (List.replicate n z) =
      List.replicate (n / 2) z
  | 0, z => by simp [odds]
  | 1, z => by simp [odds]
  | (n + 2), z => by
    rw [List.replicate_succ, List.replicate_succ]
    simp only [odds, odds_replicate n z]
    rw [show (n + 2) / 2 = n / 2 + 1 by omega, List.replicate_succ]

theorem getD_replicate_self (m i : ℕ) (z : α) :
    (List.replicate m z).getD i z = z := by
  rw [List.getD_eq_getElem?_getD, List.getElem?_replicate]
  split <;> rfl

theorem combineHalves_zero (m : ℕ) :
    combineHalves (List.replicate m ((0 : ℝ), (0 : ℝ)))
      (List.replicate m ((0 : ℝ), (0 : ℝ))) (2 * m) =
    List.replicate (2 * m) ((0 : ℝ), (0 : ℝ)) := by
  have hmap : ∀ f : ℕ → ℝ × ℝ, (∀ i, f i = (0, 0)) →
      (List.range m).map f = List.replicate m ((0 : ℝ), (0 : ℝ)) := by
    intro f hf
    rw [List.map_congr_left fun a _ => hf a, List.map_const',
      List.length_range]
  unfold combineHalves
  rw [show 2 * m / 2 = m by omega]
  rw [hmap _ fun i => by simp [getD_replicate_self],
    hmap _ fun i => by simp [getD_replicate_self]]
  rw [← List.replicate_add]
  congr 1
  omega

/-- The `fft` of an all-zero complex buffer of length `2^k` is all-zero. -/
theorem fft_replicate_zero (k : ℕ) :
    fft (List.replicate (2 ^ k) ((0 : ℝ), (0 : ℝ))) =
      some (List.replicate (2 ^ k) ((0 : ℝ), (0 : ℝ))) := by
  induction k with
  | zero =>
    rw [fft]
    simp
  | succ k ih =>
    have h2 : (2 : ℕ) ^ (k + 1) = 2 * 2 ^ k := by rw [pow_succ]; ring
    have hge : 2 ≤ (2 : ℕ) ^ (k + 1) := by
      have : 0 < (2 : ℕ) ^ k := by positivity
      omega
    rw [fft]
    rw [dif_neg (by simp)]
    rw [dif_neg (by simp)]
    rw [evens_replicate, odds_replicate, List.length_replicate]
    rw [show ((2 : ℕ) ^ (k + 1) + 1) / 2 = 2 ^ k by omega,
      show (2 : ℕ) ^ (k + 1) / 2 = 2 ^ k by omega]
    rw [ih]
    show some (combineHalves (List.replicate (2 ^ k) ((0 : ℝ), (0 : ℝ)))
      (List.replicate (2 ^ k) ((0 : ℝ), (0 : ℝ))) (2 ^ (k + 1))) = _
    rw [h2, combineHalves_zero]

/-- Claim C8.  For every power-of-two length `N = 2^k`, `fft` maps the
all-zero complex input of length `N` to the all-zero complex output of
length `N` (and does not fail). -/
theorem claim_C8_fft_zero (k : ℕ) :
    fft (List.replicate (2 ^ k) ((0 : ℝ), (0 : ℝ))) =
      some (List.replicate (2 ^ k) ((0 : ℝ), (0 : ℝ))) :=
  fft_replicate_zero k

end FFTProcessor

namespace FFTProcessor

/-- `applyWindow` on the empty signal returns the empty signal for every
window type (the multiplication loop runs zero times). -/
theorem applyWindow_nil (windowType : String) :
    applyWindow [] windowType = some [] := by
  rw [applyWindow]
  split_ifs with h1 h2 h3
  · rfl
  · exact absurd h2.2 (by simp)
  · simp
  · rfl

/-- Claim C6 (evaluation of the defect).  On the one-sample segment `[1]`
with the `'hamming'` window, `applyWindow` computes `cos(0/0) = cos NaN`
and returns `[NaN]` (modelled `none`) — not the unchanged segment `[1]`
that the claim requires. -/
theorem claim_C6_applyWindow_one_sample :
    applyWindow [(1 : ℝ)] "hamming" = none ∧
    applyWindow [(1 : ℝ)] "hamming" ≠ some [(1 : ℝ)] := by
  have h : applyWindow [(1 : ℝ)] "hamming" = none := by
    rw [applyWindow, if_neg (by decide), if_pos ⟨by decide, rfl⟩]
  exact ⟨h, by rw [h]; exact fun hc => Option.noConfusion hc⟩

/-- Claim C10.  The empty signal flows through the whole pipeline without
an error: `nextPowerOf2 0 = 0`, the FFT of the empty buffer is the empty
buffer, peak detection on empty magnitudes is empty, and `computeFFT`
returns all-empty arrays for every options record. -/
theorem claim_C10_empty_signal (options : FFTOptions) (t : ℝ) :
    nextPowerOf2 0 = 0 ∧ fft [] = some [] ∧
    detectPeaks [] [] [] t = [] ∧
    computeFFT [] options =
      some { frequencies := [], magnitudes := [], phases := [],
             peaks := [] } := by
  refine ⟨rfl, by rw [fft]; simp, rfl, ?_⟩
  rw [computeFFT, applyWindow_nil]
  show (match fft (padSignal [] (nextPowerOf2 0)
      |>.map fun x => (x, (0 : ℝ))) with
    | none => none
    | some fftResult => _) = _
  rw [show padSignal [] (nextPowerOf2 0) = [] from rfl]
  rw [show List.map (fun x => (x, (0 : ℝ))) [] = [] from rfl]
  rw [show fft [] = some [] by rw [fft]; simp]
  rfl

end FFTProcessor

namespace SpectralAnalyzer

/-- Claim C7 (evaluation of the defect).  On the unequal-length inputs
`[1, 1]` and `[1]`, `computeCrossCorrelation` returns successfully with a
numeric array whose first two lags are `NaN` (`none`): the out-of-range
accesses `signal2[1]` are `undefined`.  No descriptive error is raised. -/
theorem claim_C7_crossCorrelation_mismatched :
    computeCrossCorrelation [(1 : ℝ), 1] [(1 : ℝ)] =
      some [none, none, some 1] := by
  rw [computeCrossCorrelation]
  norm_num [List.range_succ, jsAdd]

end SpectralAnalyzer

namespace FFTProcessor

/-- For any signal whose length is not `1`, `applyWindow` succeeds and
preserves the length, whatever the window type. -/
theorem applyWindow_length (signal : List ℝ) (windowType : String)
    (h : signal.length ≠ 1) :
    ∃ w, applyWindow signal windowType = some w ∧
      w.length = signal.length := by
  rw [applyWindow]
  split_ifs with h1 h2 h3
  · exact ⟨signal, rfl, rfl⟩
  · exact absurd h2.2 h
  · exact ⟨_, rfl, by simp⟩
  · exact ⟨signal, rfl, rfl⟩

theorem combineHalves_length (ev od : List (ℝ × ℝ)) (n : ℕ) :
    (combineHalves ev od n).length = n / 2 + n / 2 := by
  unfold combineHalves
  simp

/-- `fft` succeeds on every input of power-of-two length and preserves
the length. -/
theorem fft_pow_length : ∀ (k : ℕ) (l : List (ℝ × ℝ)),
    l.length = 2 ^ k → ∃ out, fft l = some out ∧ out.length = 2 ^ k := by
  intro k
  induction k with
  | zero =>
    intro l hl
    rw [fft, dif_pos (by omega)]
    exact ⟨l, rfl, hl⟩
  | succ k ih =>
    intro l hl
    have h2 : (2 : ℕ) ^ (k + 1) = 2 * 2 ^ k := by rw [pow_succ]; ring
    have hpos : 0 < (2 : ℕ) ^ k := by positivity
    have hge : 2 ≤ l.length := by omega
    have hmod : l.length % 2 = 0 := by omega
    obtain ⟨eo, heo, heol⟩ := ih (evens l) (by rw [evens_length, hl]; omega)
    obtain ⟨oo, hoo, hool⟩ := ih (odds l) (by rw [odds_length, hl]; omega)
    rw [fft, dif_neg (by omega), dif_neg (by omega), heo, hoo]
    exact ⟨_, rfl, by rw [combineHalves_length, hl]; omega⟩

/-- Core shape lemma for `computeFFT` on signals of length at least 2:
it succeeds, the frequency array is exactly `i ↦ i · (rate / P)` over
`i < P/2`, and magnitudes and phases have length `P/2`,
with `P = nextPowerOf2 M`. -/
theorem computeFFT_shape (signal : List ℝ) (options : FFTOptions)
    (hlen : 2 ≤ signal.length) :
    ∃ res, computeFFT signal options = some res ∧
      res.frequencies = (List.range (nextPowerOf2 signal.length / 2)).map
        (fun (i : ℕ) => (i : ℝ) *
          (options.sampleRate / nextPowerOf2 signal.length)) ∧
      res.magnitudes.length = nextPowerOf2 signal.length / 2 ∧
      res.phases.length = nextPowerOf2 signal.length / 2 := by
  obtain ⟨hmod, kk, hk1, hkeq⟩ := nextPowerOf2_even_of_two_le _ hlen
  obtain ⟨w, hw, hwl⟩ := applyWindow_length signal options.windowType
    (by omega)
  have hMP : signal.length ≤ nextPowerOf2 signal.length := le_nextPowerOf2 _
  have hpadlen : (padSignal w (nextPowerOf2 signal.length)).length =
      nextPowerOf2 signal.length := by
    rw [padSignal]
    split_ifs with hcase
    · omega
    · simp only [List.length_append, List.length_replicate]
      omega
  have hclen : ((padSignal w (nextPowerOf2 signal.length)).map
      (fun x => (x, (0 : ℝ)))).length = 2 ^ kk := by
    simp only [List.length_map]
    rw [hpadlen, hkeq]
  obtain ⟨out, hout, houtl⟩ := fft_pow_length kk _ hclen
  have houtl2 : out.length = nextPowerOf2 signal.length := by
    rw [houtl, hkeq]
  simp only [computeFFT, hw, hout, calculateFrequencies,
    calculateMagnitudesAndPhases, if_neg (show ¬nextPowerOf2 signal.length
      % 2 ≠ 0 by omega), if_neg (show ¬out.length % 2 ≠ 0 by omega)]
  refine ⟨_, rfl, by simp [mul_div_assoc], ?_, ?_⟩
  · simp [houtl2]
  · simp [houtl2]

/-- Claim C1 (amended to signals of length at least 2).  `computeFFT`
returns frequency, magnitude and phase arrays of the common length `P/2`
with `P = nextPowerOf2 M`; the frequency array is `i · rate / P`, starts
at `0`, and is strictly increasing for every positive sample rate. -/
theorem claim_C1_computeFFT_shape (signal : List ℝ) (options : FFTOptions)
    (hlen : 2 ≤ signal.length) (hrate : 0 < options.sampleRate) :
    ∃ res, computeFFT signal options = some res ∧
      res.frequencies.length = nextPowerOf2 signal.length / 2 ∧
      res.magnitudes.length = nextPowerOf2 signal.length / 2 ∧
      res.phases.length = nextPowerOf2 signal.length / 2 ∧
      (∀ i < nextPowerOf2 signal.length / 2,
        res.frequencies.getD i 0 =
          i * options.sampleRate / nextPowerOf2 signal.length) ∧
      res.frequencies.getD 0 0 = 0 ∧
      List.Pairwise (· < ·) res.frequencies := by
  obtain ⟨hmod, kk, hk1, hkeq⟩ := nextPowerOf2_even_of_two_le _ hlen
  have hPpos : 0 < nextPowerOf2 signal.length := by
    rw [hkeq]; positivity
  have hhalf : 0 < nextPowerOf2 signal.length / 2 := by
    rw [hkeq]
    obtain ⟨m, hm⟩ : ∃ m, kk = m + 1 := ⟨kk - 1, by omega⟩
    rw [hm, pow_succ]
    have : 0 < (2 : ℕ) ^ m := by positivity
    omega
  obtain ⟨res, hres, hfreq, hm, hp⟩ := computeFFT_shape signal options hlen
  have hgetD : ∀ i < nextPowerOf2 signal.length / 2,
      res.frequencies.getD i 0 =
        i * (options.sampleRate / nextPowerOf2 signal.length) := by
    intro i hi
    rw [hfreq, List.getD_eq_getElem?_getD, List.getElem?_map,
      List.getElem?_range hi]
    rfl
  refine ⟨res, hres, ?_, hm, hp, ?_, ?_, ?_⟩
  · rw [hfreq]; simp
  · intro i hi
    rw [hgetD i hi, mul_div_assoc]
  · rw [hgetD 0 hhalf]
    simp
  · rw [hfreq, List.pairwise_map]
    have hd : 0 < options.sampleRate / (nextPowerOf2 signal.length : ℝ) :=
      div_pos hrate (by exact_mod_cast hPpos)
    exact (List.pairwise_lt_range _).imp fun {i j} hij =>
      mul_lt_mul_of_pos_right (by exact_mod_cast hij) hd

/-- Witness for C1 at the two-sample signal `[1, 2]` with a Hamming
window and sample rate `1`. -/
theorem claim_C1_computeFFT_shape_witness :
    2 ≤ ([(1 : ℝ), 2]).length ∧
    (0 : ℝ) < 1 ∧
    (∃ res, computeFFT [(1 : ℝ), 2]
        { windowType := "hamming", sampleRate := 1, peakThreshold := 10 } =
          some res ∧
      res.frequencies.length = nextPowerOf2 2 / 2 ∧
      res.magnitudes.length = nextPowerOf2 2 / 2 ∧
      res.phases.length = nextPowerOf2 2 / 2 ∧
      (∀ i < nextPowerOf2 2 / 2,
        res.frequencies.getD i 0 = i * 1 / nextPowerOf2 2) ∧
      res.frequencies.getD 0 0 = 0 ∧
      List.Pairwise (· < ·) res.frequencies) :=
  ⟨by decide, one_pos,
    claim_C1_computeFFT_shape [(1 : ℝ), 2]
      { windowType := "hamming", sampleRate := 1, peakThreshold := 10 }
      (by decide) one_pos⟩

/-- Counterexample to C1 as stated: on the non-empty one-sample signal
`[1]` the padded length is `1`, `new Array(1/2)` throws a `RangeError`,
and `computeFFT` does not return any arrays. -/
theorem claim_C1_counterexample :
    computeFFT [(1 : ℝ)]
      { windowType := "none", sampleRate := 1, peakThreshold := 10 } =
      none := by
  have hP : nextPowerOf2 1 = 1 := by
    rw [nextPowerOf2, if_neg one_ne_zero, Nat.clog_one_right, pow_zero]
  have hfft : fft [((1 : ℝ), 0)] = some [((1 : ℝ), 0)] := by
    rw [fft, dif_pos (by decide)]
  simp [computeFFT, applyWindow, padSignal, hP, hfft,
    calculateFrequencies]

end FFTProcessor

namespace FFTProcessor

/-- A `filterMap` by an if-then-some-else-none function is the filter by
the condition followed by the map. -/
theorem filterMap_ite_eq_filter_map {β : Type} (p : ℕ → Prop)
    [DecidablePred p] (g : ℕ → β) :
    ∀ l : List ℕ,
      (l.filterMap fun i => if p i then some (g i) else none) =
        (l.filter fun i => decide (p i)).map g
  | [] => rfl
  | a :: l => by
    by_cases h : p a
    · rw [List.filterMap_cons_some (by rw [if_pos h]),
        List.filter_cons_of_pos (by simpa using h), List.map_cons,
        filterMap_ite_eq_filter_map p g l]
    · rw [List.filterMap_cons_none (by rw [if_neg h]),
        List.filter_cons_of_neg (by simpa using h),
        filterMap_ite_eq_filter_map p g l]

/-- `Math.max(...arr)` over a nonempty array, written as the fold the
model uses, is `List.maximum`. -/
theorem foldl_max_eq_maximum : ∀ (m0 : ℝ) (rest : List ℝ),
    rest.foldl max m0 = ((m0 :: rest).maximum).unbot' 0
  | m0, [] => by
    rw [List.foldl_nil, List.maximum_singleton]
    rfl
  | m0, r :: rs => by
    rw [List.foldl_cons, foldl_max_eq_maximum (max m0 r) rs]
    congr 1
    rw [List.maximum_cons, List.maximum_cons, List.maximum_cons,
      WithBot.coe_max, max_assoc]

/-- Transitivity of the JS sort comparator `(a, b) => b.magnitude -
a.magnitude`, read as the boolean relation "a may come before b". -/
theorem peakLE_trans : ∀ a b c : Peak,
    decide (b.magnitude ≤ a.magnitude) = true →
    decide (c.magnitude ≤ b.magnitude) = true →
    decide (c.magnitude ≤ a.magnitude) = true := by
  intro a b c hab hbc
  simp only [decide_eq_true_eq] at hab hbc ⊢
  exact hbc.trans hab

/-- Totality of the JS sort comparator relation. -/
theorem peakLE_total : ∀ a b : Peak,
    (decide (b.magnitude ≤ a.magnitude) ||
      decide (a.magnitude ≤ b.magnitude)) = true := by
  intro a b
  simp [le_total]

/-- Stability of the descending-magnitude merge sort: for every magnitude
value `v`, the peaks of magnitude `v` appear in the sorted output in
exactly their input order. -/
theorem mergeSort_filter_stable (cand : List Peak) (v : ℝ) :
    ((cand.mergeSort fun a b => decide (b.magnitude ≤ a.magnitude)).filter
      fun pk => decide (pk.magnitude = v)) =
    cand.filter fun pk => decide (pk.magnitude = v) := by
  have hvle : (cand.filter
      (fun pk => decide (pk.magnitude = v))).Pairwise
      fun a b => decide (b.magnitude ≤ a.magnitude) = true := by
    apply List.pairwise_of_forall_mem_list
    intro a ha b hb
    have hav : a.magnitude = v :=
      decide_eq_true_eq.mp (List.mem_filter.mp ha).2
    have hbv : b.magnitude = v :=
      decide_eq_true_eq.mp (List.mem_filter.mp hb).2
    simp [hav, hbv]
  have hsub : List.Sublist
      (cand.filter fun pk => decide (pk.magnitude = v))
      (cand.mergeSort fun a b => decide (b.magnitude ≤ a.magnitude)) :=
    List.sublist_mergeSort peakLE_trans peakLE_total hvle
      (List.filter_sublist cand)
  have hsub2 := hsub.filter fun pk => decide (pk.magnitude = v)
  rw [List.filter_filter,
    List.filter_congr (fun a _ => Bool.and_self _)] at hsub2
  have hperm :
      ((cand.mergeSort fun a b =>
          decide (b.magnitude ≤ a.magnitude)).filter
        fun pk => decide (pk.magnitude = v)).Perm
      (cand.filter fun pk => decide (pk.magnitude = v)) :=
    (List.mergeSort_perm cand _).filter _
  exact (hsub2.eq_of_length hperm.length_eq.symm).symm

/-- The peak-candidate list exactly as the claim describes it: the bins
`1 ≤ i ≤ len - 2`, in bin order, whose magnitude strictly exceeds both
`max(magnitude) · threshold / 100` and the two neighbouring magnitudes,
each rendered as a (frequency, magnitude, phase) record. -/
noncomputable def peakCandidates (frequencies magnitudes phases : List ℝ)
    (threshold : ℝ) : List Peak :=
  ((List.range magnitudes.length).filter fun i =>
    decide (1 ≤ i ∧ i ≤ magnitudes.length - 2 ∧
      magnitudes.maximum.unbot' 0 * threshold / 100 < magnitudes.getD i 0 ∧
      magnitudes.getD (i - 1) 0 < magnitudes.getD i 0 ∧
      magnitudes.getD (i + 1) 0 < magnitudes.getD i 0)).map
    fun i => { frequency := frequencies.getD i 0,
               magnitude := magnitudes.getD i 0,
               phase := phases.getD i 0 }

/-- Claim C2.  `detectPeaks` returns exactly the claim's candidate bins
(as a permutation of the in-order candidate list), sorted by
non-increasing magnitude, and stably: for every magnitude value the
sub-list of peaks with that magnitude keeps the original bin order. -/
theorem claim_C2_detectPeaks (frequencies magnitudes phases : List ℝ)
    (threshold : ℝ) (hf : frequencies.length = magnitudes.length)
    (hph : phases.length = magnitudes.length) :
    (detectPeaks frequencies magnitudes phases threshold).Perm
      (peakCandidates frequencies magnitudes phases threshold) ∧
    (detectPeaks frequencies magnitudes phases threshold).Pairwise
      (fun a b => b.magnitude ≤ a.magnitude) ∧
    (∀ v : ℝ,
      (detectPeaks frequencies magnitudes phases threshold).filter
        (fun pk => decide (pk.magnitude = v)) =
      (peakCandidates frequencies magnitudes phases threshold).filter
        (fun pk => decide (pk.magnitude = v))) := by
  cases magnitudes with
  | nil =>
    refine ⟨?_, ?_, ?_⟩ <;> simp [detectPeaks, peakCandidates]
  | cons m0 rest =>
    have hdp : detectPeaks frequencies (m0 :: rest) phases threshold =
        ((List.range (m0 :: rest).length).filterMap fun i =>
          if 1 ≤ i ∧ i < (m0 :: rest).length - 1 ∧
              rest.foldl max m0 * (threshold / 100) <
                (m0 :: rest).getD i 0 ∧
              (m0 :: rest).getD (i - 1) 0 < (m0 :: rest).getD i 0 ∧
              (m0 :: rest).getD (i + 1) 0 < (m0 :: rest).getD i 0 then
            some { frequency := frequencies.getD i 0,
                   magnitude := (m0 :: rest).getD i 0,
                   phase := phases.getD i 0 }
          else none).mergeSort
          (fun a b => decide (b.magnitude ≤ a.magnitude)) := rfl
    have hcand_eq :
        peakCandidates frequencies (m0 :: rest) phases threshold =
        ((List.range (m0 :: rest).length).filterMap fun i =>
          if 1 ≤ i ∧ i < (m0 :: rest).length - 1 ∧
              rest.foldl max m0 * (threshold / 100) <
                (m0 :: rest).getD i 0 ∧
              (m0 :: rest).getD (i - 1) 0 < (m0 :: rest).getD i 0 ∧
              (m0 :: rest).getD (i + 1) 0 < (m0 :: rest).getD i 0 then
            some { frequency := frequencies.getD i 0,
                   magnitude := (m0 :: rest).getD i 0,
                   phase := phases.getD i 0 }
          else none) := by
      rw [peakCandidates, filterMap_ite_eq_filter_map]
      congr 1
      apply List.filter_congr
      intro i _
      apply decide_eq_decide.mpr
      constructor
      · rintro ⟨h1, h2, h3, h4, h5⟩
        refine ⟨h1, by simp only [List.length_cons] at h2 ⊢; omega,
          ?_, h4, h5⟩
        rw [foldl_max_eq_maximum, ← mul_div_assoc]
        exact h3
      · rintro ⟨h1, h2, h3, h4, h5⟩
        refine ⟨h1, by simp only [List.length_cons] at h2 ⊢; omega,
          ?_, h4, h5⟩
        rwa [foldl_max_eq_maximum, ← mul_div_assoc] at h3
    rw [hdp, hcand_eq]
    exact ⟨List.mergeSort_perm _ _,
      (List.sorted_mergeSort peakLE_trans peakLE_total _).imp
        (fun h => decide_eq_true_eq.mp h),
      fun v => mergeSort_filter_stable _ v⟩

end FFTProcessor

namespace FFTProcessor

/-- Witness for C2 at a concrete four-bin spectrum with threshold 10%. -/
theorem claim_C2_detectPeaks_witness :
    ([0, 1, 2, 3] : List ℝ).length = ([0, 5, 1, 3] : List ℝ).length ∧
    ([0, 0, 0, 0] : List ℝ).length = ([0, 5, 1, 3] : List ℝ).length ∧
    ((detectPeaks [0, 1, 2, 3] [0, 5, 1, 3] [0, 0, 0, 0] 10).Perm
        (peakCandidates [0, 1, 2, 3] [0, 5, 1, 3] [0, 0, 0, 0] 10) ∧
      (detectPeaks [0, 1, 2, 3] [0, 5, 1, 3] [0, 0, 0, 0] 10).Pairwise
        (fun a b => b.magnitude ≤ a.magnitude) ∧
      (∀ v : ℝ,
        (detectPeaks [0, 1, 2, 3] [0, 5, 1, 3] [0, 0, 0, 0] 10).filter
          (fun pk => decide (pk.magnitude = v)) =
        (peakCandidates [0, 1, 2, 3] [0, 5, 1, 3]
            [0, 0, 0, 0] 10).filter
          (fun pk => decide (pk.magnitude = v)))) :=
  ⟨rfl, rfl,
    claim_C2_detectPeaks [0, 1, 2, 3] [0, 5, 1, 3] [0, 0, 0, 0] 10 rfl rfl⟩

end FFTProcessor

namespace SpectralAnalyzer

theorem zeroPadTo_length (n : ℕ) (l : List ℝ) :
    (zeroPadTo n l).length = max n l.length := by
  rw [zeroPadTo]
  simp only [List.length_append, List.length_replicate]
  omega

theorem hopSize_pos (cfg : AnalyzerConfig) : 1 ≤ hopSize cfg :=
  le_max_left 1 _

/-- Closed form of the long-signal loop: starting from index `i`, the
loop emits one zero-padded window per start index
`i, i + hop, i + 2·hop, …` strictly below `signal.length - hop`
(`hop = hp1 + 1`). -/
theorem segLoop_eq (signal : List ℝ) (segSize hp1 : ℕ) (i : ℕ) :
    segLoop signal segSize hp1 i =
      (List.range
        ((signal.length - (hp1 + 1) - i + hp1) / (hp1 + 1))).map
        fun j => zeroPadTo segSize
          ((signal.drop (i + j * (hp1 + 1))).take segSize) := by
  rw [segLoop]
  split_ifs with h
  · have hcnt : (signal.length - (hp1 + 1) - i + hp1) / (hp1 + 1) =
        (signal.length - (hp1 + 1) - (i + (hp1 + 1)) + hp1) / (hp1 + 1)
          + 1 := by
      rcases Nat.lt_or_ge (signal.length - (hp1 + 1) - i) (hp1 + 1)
        with hc | hc
      · have h0 : signal.length - (hp1 + 1) - (i + (hp1 + 1)) = 0 := by
          omega
        rw [h0]
        have e1 : signal.length - (hp1 + 1) - i + hp1 =
            (signal.length - (hp1 + 1) - i - 1) + (hp1 + 1) := by omega
        rw [e1, Nat.add_div_right _ (Nat.succ_pos hp1),
          Nat.div_eq_of_lt (by omega), Nat.div_eq_of_lt (by omega)]
      · have e1 : signal.length - (hp1 + 1) - i + hp1 =
            (signal.length - (hp1 + 1) - (i + (hp1 + 1)) + hp1)
              + (hp1 + 1) := by omega
        rw [e1, Nat.add_div_right _ (Nat.succ_pos hp1)]
    rw [segLoop_eq signal segSize hp1 (i + (hp1 + 1)), hcnt,
      List.range_succ_eq_map, List.map_cons, List.map_map]
    congr 1
    · rw [Nat.zero_mul, Nat.add_zero]
    · apply List.map_congr_left
      intro j _
      simp only [Function.comp_apply, Nat.succ_eq_add_one]
      congr 2
      ring_nf
  · rw [show signal.length - (hp1 + 1) - i = 0 by omega]
    rw [Nat.div_eq_of_lt (by omega)]
    rfl
termination_by signal.length - (hp1 + 1) - i
decreasing_by omega

/-- Claim C4, amended to signals strictly longer than one frame.  The
frames are exactly the windows starting at `0, h, 2h, …` for all starts
below `M - h` (`h = hopSize`, the code's loop bound — not "until the
window passes the signal end"), each sliced to at most `N` samples and
right-zero-padded to length exactly `N`. -/
theorem claim_C4_segmentSignal (cfg : AnalyzerConfig) (signal : List ℝ)
    (h : cfg.fftSize < signal.length) :
    _segmentSignal cfg signal =
      (List.range ((signal.length - hopSize cfg + (hopSize cfg - 1)) /
          hopSize cfg)).map
        (fun j => zeroPadTo cfg.fftSize
          ((signal.drop (j * hopSize cfg)).take cfg.fftSize)) ∧
    ∀ frame ∈ _segmentSignal cfg signal, frame.length = cfg.fftSize := by
  have h1 : 1 ≤ hopSize cfg := hopSize_pos cfg
  have hmain : _segmentSignal cfg signal =
      (List.range ((signal.length - hopSize cfg + (hopSize cfg - 1)) /
          hopSize cfg)).map
        (fun j => zeroPadTo cfg.fftSize
          ((signal.drop (j * hopSize cfg)).take cfg.fftSize)) := by
    rw [_segmentSignal, if_neg (by omega)]
    rw [segLoop_eq]
    rw [show hopSize cfg - 1 + 1 = hopSize cfg by omega]
    congr 1
    funext j
    rw [Nat.zero_add]
  refine ⟨hmain, ?_⟩
  intro frame hframe
  rw [hmain] at hframe
  obtain ⟨j, _, rfl⟩ := List.mem_map.mp hframe
  rw [zeroPadTo_length]
  have : ((signal.drop (j * hopSize cfg)).take cfg.fftSize).length ≤
      cfg.fftSize := by
    simp
  omega

/-- Witness for C4 at `N = 4`, `f = 1/2` (`h = 2`) on a nine-sample
signal: starts `0, 2, 4, 6` (all below `9 - 2 = 7`), four frames of
length 4. -/
theorem claim_C4_segmentSignal_witness :
    (4 : ℕ) < ([1, 1, 1, 1, 1, 1, 1, 1, 1] : List ℝ).length ∧
    (_segmentSignal ⟨4, 1 / 2⟩ ([1, 1, 1, 1, 1, 1, 1, 1, 1] : List ℝ) =
      (List.range ((([1, 1, 1, 1, 1, 1, 1, 1, 1] : List ℝ).length -
          hopSize ⟨4, 1 / 2⟩ + (hopSize ⟨4, 1 / 2⟩ - 1)) /
          hopSize ⟨4, 1 / 2⟩)).map
        (fun j => zeroPadTo 4
          ((([1, 1, 1, 1, 1, 1, 1, 1, 1] : List ℝ).drop
            (j * hopSize ⟨4, 1 / 2⟩)).take 4)) ∧
      ∀ frame ∈ _segmentSignal ⟨4, 1 / 2⟩
          ([1, 1, 1, 1, 1, 1, 1, 1, 1] : List ℝ),
        frame.length = 4) :=
  ⟨by norm_num,
    claim_C4_segmentSignal ⟨4, 1 / 2⟩ [1, 1, 1, 1, 1, 1, 1, 1, 1]
      (by norm_num)⟩

/-- Counterexample to C4 as stated: for `M = N = 4`, `f = 1/2`
(`hopSize = 2`), sliding a window from start `0` by hops and stopping
once it would run past the end would give a single frame `[1, 2, 3, 4]`
(at most two frames under any reading), but the code takes the
short-signal branch and fabricates `max(10, ⌊4/2⌋) = 10` clamped,
overlapping frames. -/
theorem claim_C4_counterexample :
    (_segmentSignal ⟨4, 1 / 2⟩ [(1 : ℝ), 2, 3, 4]).length = 10 ∧
    _segmentSignal ⟨4, 1 / 2⟩ [(1 : ℝ), 2, 3, 4] ≠
      [[(1 : ℝ), 2, 3, 4]] := by
  have hhop : hopSize ⟨4, 1 / 2⟩ = 2 := by
    rw [hopSize]
    norm_num
    rfl
  have h : _segmentSignal ⟨4, 1 / 2⟩ [(1 : ℝ), 2, 3, 4] =
      (List.range 10).map fun i =>
        zeroPadTo 4 (([(1 : ℝ), 2, 3, 4]).drop (min (i * 2) 3)) := by
    rw [_segmentSignal, if_pos (by norm_num), hhop]
    norm_num
  refine ⟨by rw [h]; simp, fun heq => ?_⟩
  have hlen := congrArg List.length heq
  rw [h] at hlen
  simp at hlen
end SpectralAnalyzer

namespace SpectralAnalyzer

open FFTProcessor

theorem jsAdd_none_right (s : Option ℝ) : jsAdd s none = none := by
  cases s <;> rfl

/-- Every step of the PSD reduce adds `Math.abs` of a `{real, imag}`
record — `NaN` — so as soon as one frame exists the accumulated sum is
`NaN` (`none`), whatever the start value. -/
theorem psd_fold_none : ∀ (l : List (List (ℝ × ℝ))) (i : ℕ), l ≠ [] →
    ∀ s : Option ℝ,
      l.foldl (fun sum fftRow =>
        jsAdd sum (jsPow2 (jsAbsOfComplexRecord (fftRow.getD i (0, 0)))))
        s = none
  | [], _, h => absurd rfl h
  | [a], i, _ => fun s => by
    rw [List.foldl_cons, List.foldl_nil]
    rw [show jsAbsOfComplexRecord (a.getD i (0, 0)) = none from rfl]
    rw [show jsPow2 none = none from rfl, jsAdd_none_right]
  | a :: b :: l, i, _ => fun s => by
    rw [List.foldl_cons]
    exact psd_fold_none (b :: l) i (by simp) _

/-- Every frame produced by `_segmentSignal` has length exactly
`fftSize`. -/
theorem _segmentSignal_frame_length (cfg : AnalyzerConfig)
    (signal : List ℝ) :
    ∀ frame ∈ _segmentSignal cfg signal, frame.length = cfg.fftSize := by
  intro frame hframe
  rw [_segmentSignal] at hframe
  split_ifs at hframe with h
  · obtain ⟨i, _, rfl⟩ := List.mem_map.mp hframe
    rw [zeroPadTo_length]
    have : (signal.drop (min (i * hopSize cfg) (signal.length - 1))).length
        ≤ signal.length := by simp
    omega
  · rw [segLoop_eq] at hframe
    obtain ⟨j, _, rfl⟩ := List.mem_map.mp hframe
    rw [zeroPadTo_length]
    have : ((signal.drop (0 + j * (hopSize cfg - 1 + 1))).take
        cfg.fftSize).length ≤ cfg.fftSize := by simp
    omega

/-- `_segmentSignal` with the constructor configuration never returns an
empty frame list. -/
theorem _segmentSignal_cfg512_ne_nil (signal : List ℝ) :
    _segmentSignal cfg512 signal ≠ [] := by
  have hhop : hopSize cfg512 = 51 := by
    rw [hopSize]
    norm_num [cfg512]
    rfl
  rw [_segmentSignal]
  split_ifs with h
  · intro heq
    have := congrArg List.length heq
    simp at this
  · rw [segLoop_eq]
    intro heq
    have hlen := congrArg List.length heq
    simp only [List.length_map, List.length_range, List.length_nil] at hlen
    rw [show hopSize cfg512 - 1 + 1 = hopSize cfg512 by
      have := hopSize_pos cfg512; omega] at hlen
    rw [hhop] at hlen
    simp only [cfg512] at h
    have h1 : 1 ≤ (signal.length - 51 - 0 + (51 - 1)) / 51 :=
      (Nat.one_le_div_iff (by norm_num)).mpr (by omega)
    omega

/-- `_applyWindow` preserves the segment length. -/
theorem _applyWindow_length (segment : List ℝ) (windowType : String) :
    (_applyWindow segment windowType).length = segment.length := by
  rw [_applyWindow]
  simp

/-- `_computeFFT` succeeds on every signal of length at least 2, and the
complex result has `nextPowerOf2 len / 2` entries. -/
theorem _computeFFT_some (cfg : AnalyzerConfig) (signal : List ℝ)
    (h : 2 ≤ signal.length) :
    ∃ c, _computeFFT cfg signal = some c ∧
      c.length = nextPowerOf2 signal.length / 2 := by
  obtain ⟨res, hres, hfreq, hmag, hph⟩ := computeFFT_shape signal
    { windowType := "none", sampleRate := (cfg.fftSize : ℝ),
      peakThreshold := 0 } h
  rw [_computeFFT, if_neg (by omega), hres]
  exact ⟨_, rfl, by simp [hmag]⟩

/-- If `f` succeeds on every element, `mapM f` succeeds with the same
length. -/
theorem mapM_some_of_forall {α β : Type} (f : α → Option β) :
    ∀ l : List α, (∀ a ∈ l, ∃ b, f a = some b) →
      ∃ out, l.mapM f = some out ∧ out.length = l.length
  | [], _ => ⟨[], rfl, rfl⟩
  | a :: l, h => by
    obtain ⟨b, hb⟩ := h a (List.mem_cons_self a l)
    obtain ⟨out, hout, hlen⟩ := mapM_some_of_forall f l
      fun x hx => h x (List.mem_cons_of_mem a hx)
    refine ⟨b :: out, ?_, by simp [hlen]⟩
    rw [List.mapM_cons]
    rw [hb, hout]
    rfl

/-- If `mapM f` succeeds then the output has the input's length. -/
theorem length_of_mapM_some {α β : Type} (f : α → Option β) :
    ∀ (l : List α) (out : List β), l.mapM f = some out →
      out.length = l.length
  | [], out, h => by
    rw [List.mapM_nil] at h
    cases h
    rfl
  | a :: l, out, h => by
    rw [List.mapM_cons] at h
    cases hfa : f a with
    | none => rw [hfa] at h; cases h
    | some b =>
      rw [hfa] at h
      cases hml : l.mapM f with
      | none => rw [hml] at h; cases h
      | some out2 =>
        rw [hml] at h
        cases h
        simp [length_of_mapM_some f l out2 hml]

end SpectralAnalyzer

namespace SpectralAnalyzer

open FFTProcessor

/-- Claim C5 (evaluation of the defect).  Whenever `computePSD` (with the
constructor configuration) returns a result at all, every one of its
`fftSize/2` PSD entries is `NaN` (`none`): the reduce applies `Math.abs`
to the `{real, imag}` records returned by the revised `_computeFFT`, so
no averaged `|FFT|²` value is ever produced. -/
theorem claim_C5_computePSD_nan (signal : List ℝ) (sampleRate : ℝ)
    (res : PSDResult)
    (h : computePSD cfg512 signal sampleRate = some res) :
    res.psd.length = cfg512.fftSize / 2 ∧ ∀ x ∈ res.psd, x = none := by
  rw [computePSD] at h
  cases hm : ((_segmentSignal cfg512 signal).map
      fun seg => _applyWindow seg "hanning").mapM (_computeFFT cfg512) with
  | none =>
    rw [hm] at h
    cases h
  | some ffts =>
    rw [hm] at h
    obtain rfl : res = _ := (Option.some.inj h).symm
    have hlen : ffts.length = (_segmentSignal cfg512 signal).length := by
      have := length_of_mapM_some _ _ _ hm
      simpa using this
    have hne : ffts ≠ [] := by
      intro hf
      rw [hf] at hlen
      exact _segmentSignal_cfg512_ne_nil signal
        (List.length_eq_zero.mp hlen.symm)
    constructor
    · simp
    · intro x hx
      simp only [List.mem_map, List.mem_range] at hx
      obtain ⟨i, _, rfl⟩ := hx
      rw [psd_fold_none ffts i hne]
      rfl

/-- `computePSD` with the constructor configuration succeeds on every
signal (segmentation always yields frames, and every frame FFT
succeeds). -/
theorem computePSD_cfg512_some (signal : List ℝ) (sampleRate : ℝ) :
    ∃ res, computePSD cfg512 signal sampleRate = some res := by
  have hall : ∀ wseg ∈ (_segmentSignal cfg512 signal).map
      (fun seg => _applyWindow seg "hanning"),
      ∃ c, _computeFFT cfg512 wseg = some c := by
    intro wseg hwseg
    obtain ⟨seg, hseg, rfl⟩ := List.mem_map.mp hwseg
    have hl : seg.length = cfg512.fftSize :=
      _segmentSignal_frame_length cfg512 signal seg hseg
    have h2 : 2 ≤ (_applyWindow seg "hanning").length := by
      rw [_applyWindow_length, hl]
      norm_num [cfg512]
    obtain ⟨c, hc, _⟩ := _computeFFT_some cfg512 _ h2
    exact ⟨c, hc⟩
  obtain ⟨out, hout, _⟩ := mapM_some_of_forall _ _ hall
  rw [computePSD, hout]
  exact ⟨_, rfl⟩

/-- Witness for C5: on the one-sample signal `[1]` with sample rate `1`,
`computePSD` returns a record whose 256 PSD entries are all `NaN`. -/
theorem claim_C5_computePSD_nan_witness :
    ∃ res, computePSD cfg512 [(1 : ℝ)] 1 = some res ∧
      (res.psd.length = cfg512.fftSize / 2 ∧ ∀ x ∈ res.psd, x = none) := by
  obtain ⟨res, hres⟩ := computePSD_cfg512_some [(1 : ℝ)] 1
  exact ⟨res, hres, claim_C5_computePSD_nan [(1 : ℝ)] 1 res hres⟩

end SpectralAnalyzer

namespace SpectralAnalyzer

open FFTProcessor

theorem logb_ten_floor_value : Real.logb 10 (1 / 10 ^ 10) = -10 := by
  have h : (1 / 10 ^ 10 : ℝ) = (10 : ℝ) ^ (((-10 : ℤ) : ℝ)) := by
    rw [Real.rpow_intCast]
    norm_num [zpow_neg]
  rw [h, Real.logb_rpow (by norm_num) (by norm_num)]
  norm_num

/-- Any row produced by the spectrogram's per-segment dB conversion has
all entries above `-200`. -/
theorem spectro_rows_bound (cfg : AnalyzerConfig)
    (segs : List (List ℝ)) :
    ∀ row ∈ segs.filterMap (fun segment =>
      match computeFFT (_applyWindow segment "hanning")
          { windowType := "none", sampleRate := (cfg.fftSize : ℝ),
            peakThreshold := 0 } with
      | none => none
      | some result =>
        some ((result.magnitudes.take (cfg.fftSize / 2)).map
          fun magnitude =>
            if magnitude ≤ 1 / 10 ^ 10 then -100
            else 20 * Real.logb 10 magnitude)),
      ∀ x ∈ row, -200 < x := by
  intro row hrow x hx
  simp only [List.mem_filterMap] at hrow
  obtain ⟨segment, _, hseg⟩ := hrow
  cases hfft : computeFFT (_applyWindow segment "hanning")
      { windowType := "none", sampleRate := (cfg.fftSize : ℝ),
        peakThreshold := 0 } with
  | none =>
    rw [hfft] at hseg
    cases hseg
  | some result =>
    rw [hfft] at hseg
    obtain rfl : row = _ := (Option.some.inj hseg).symm
    simp only [List.mem_map] at hx
    obtain ⟨magnitude, _, rfl⟩ := hx
    split_ifs with hfloor
    · norm_num
    · have hgt : (1 / 10 ^ 10 : ℝ) < magnitude := not_le.mp hfloor
      have hlog : Real.logb 10 (1 / 10 ^ 10) <
          Real.logb 10 magnitude :=
        Real.logb_lt_logb (by norm_num) (by positivity) hgt
      rw [logb_ten_floor_value] at hlog
      nlinarith

/-- Claim C3, amended.  Every dB value in a returned spectrogram matrix
is strictly greater than `-200`: floored values are exactly `-100`, and
unfloored values `20·log10(m)` have `m > 1e-10`, hence exceed
`20·log10(1e-10) = -200`.  (The claim's stated bound of `-100` fails;
see the counterexample.) -/
theorem claim_C3_spectrogram_db_bound (cfg : AnalyzerConfig)
    (signal : List ℝ) (sampleRate : ℝ) (mat : SpectrogramResult)
    (h : computeSpectrogram cfg signal sampleRate = some mat) :
    ∀ row ∈ mat.data, ∀ x ∈ row, -200 < x := by
  simp only [computeSpectrogram] at h
  split_ifs at h
  all_goals
    obtain rfl : mat = _ := (Option.some.inj h).symm
    exact spectro_rows_bound cfg _

end SpectralAnalyzer

namespace FFTProcessor

theorem map_evens {α β : Type} (f : α → β) :
    ∀ l : List α, evens (l.map f) = (evens l).map f
  | [] => rfl
  | [_] => rfl
  | _ :: _ :: rest => by
    simp [evens, map_evens f rest]

theorem map_odds {α β : Type} (f : α → β) :
    ∀ l : List α, odds (l.map f) = (odds l).map f
  | [] => rfl
  | [_] => rfl
  | _ :: _ :: rest => by
    simp [odds, map_odds f rest]

/-- De-interleaving preserves the total sum. -/
theorem evens_sum_add_odds_sum : ∀ l : List ℝ,
    (evens l).sum + (odds l).sum = l.sum
  | [] => by simp [evens, odds]
  | [x] => by simp [evens, odds]
  | x :: y :: rest => by
    simp only [evens, odds, List.sum_cons]
    have := evens_sum_add_odds_sum rest
    ring_nf
    ring_nf at this
    linarith

theorem getD_zero_of_head? {α : Type} (l : List α) (v d : α)
    (h : l.head? = some v) : l.getD 0 d = v := by
  cases l with
  | nil => cases h
  | cons a t =>
    rw [List.head?_cons] at h
    rw [List.getD_cons_zero]
    exact Option.some.inj h

/-- Bin 0 of the FFT is the plain (un-twiddled) sum of the input:
`fft` succeeds on power-of-two lengths and its first output entry is the
componentwise sum of the complex input. -/
theorem fft_head : ∀ (k : ℕ) (l : List (ℝ × ℝ)), l.length = 2 ^ k →
    ∃ out, fft l = some out ∧ out.length = 2 ^ k ∧
      out.head? = some ((l.map Prod.fst).sum, (l.map Prod.snd).sum) := by
  intro k
  induction k with
  | zero =>
    intro l hl
    obtain ⟨a, rfl⟩ := List.length_eq_one.mp hl
    rw [fft, dif_pos (by simp)]
    refine ⟨[a], rfl, by simp, ?_⟩
    simp
  | succ k ih =>
    intro l hl
    have h2 : (2 : ℕ) ^ (k + 1) = 2 * 2 ^ k := by rw [pow_succ]; ring
    have hpos : 0 < (2 : ℕ) ^ k := by positivity
    have hge : 2 ≤ l.length := by omega
    have hmod : l.length % 2 = 0 := by omega
    obtain ⟨eo, heo, heol, heoh⟩ := ih (evens l)
      (by rw [evens_length, hl]; omega)
    obtain ⟨oo, hoo, hool, hooh⟩ := ih (odds l)
      (by rw [odds_length, hl]; omega)
    rw [fft, dif_neg (by omega), dif_neg (by omega), heo, hoo]
    refine ⟨_, rfl, ?_, ?_⟩
    · rw [combineHalves_length, hl]
      omega
    · have hhalf : l.length / 2 = 2 ^ k := by omega
      obtain ⟨m, hm⟩ : ∃ m, 2 ^ k = m + 1 := ⟨2 ^ k - 1, by omega⟩
      rw [combineHalves, List.head?_append, hhalf, hm,
        List.range_succ_eq_map, List.map_cons, List.head?_cons,
        Option.or_some]
      congr 1
      rw [getD_zero_of_head? eo _ _ heoh, getD_zero_of_head? oo _ _ hooh]
      have htr : twiddleRe l.length 0 = 1 := by
        rw [twiddleRe]
        norm_num
      have hti : twiddleIm l.length 0 = 0 := by
        rw [twiddleIm]
        norm_num
      rw [htr, hti]
      have hfst := evens_sum_add_odds_sum (l.map Prod.fst)
      have hsnd := evens_sum_add_odds_sum (l.map Prod.snd)
      rw [map_evens, map_odds] at hfst hsnd
      refine Prod.ext ?_ ?_ <;> simp <;> linarith

end FFTProcessor

namespace FFTProcessor

theorem sum_map_range_eq_finset (f : ℕ → ℝ) :
    ∀ n, ((List.range n).map f).sum = ∑ i ∈ Finset.range n, f i := by
  intro n
  induction n with
  | zero => simp
  | succ n ih =>
    rw [List.range_succ, List.map_append, List.sum_append,
      Finset.sum_range_succ, ih]
    simp

/-- Concrete evaluation of `computeFFT` at bin 0 for a 512-sample signal
with the `'none'` window: it succeeds, produces 256 magnitudes, and
`magnitude[0] = sqrt(S·S + 0·0)/512` with `S` the plain sum of the
signal. -/
theorem computeFFT_bin0 (w : List ℝ) (rate : ℝ) (hw : w.length = 512) :
    ∃ res, computeFFT w
        { windowType := "none", sampleRate := rate, peakThreshold := 0 } =
        some res ∧
      res.magnitudes.length = 256 ∧
      res.magnitudes.getD 0 0 =
        Real.sqrt (w.sum * w.sum + 0 * 0) / 512 := by
  have hP : nextPowerOf2 w.length = 512 := by
    rw [hw, show (512 : ℕ) = 2 ^ 9 by norm_num, nextPowerOf2_pow]
  have hwin : applyWindow w "none" = some w := by
    rw [applyWindow, if_pos rfl]
  have hpad : padSignal w 512 = w := by
    rw [padSignal, if_pos (by omega)]
  have hclen : (w.map fun x => (x, (0 : ℝ))).length = 2 ^ 9 := by
    simp [hw]
  obtain ⟨out, hfft, houtlen, houth⟩ := fft_head 9 _ hclen
  have hfst : ((w.map fun x => (x, (0 : ℝ))).map Prod.fst) = w := by
    simp only [List.map_map, Function.comp_def]
    exact List.map_id w
  have hsnd : (((w.map fun x => (x, (0 : ℝ))).map Prod.snd)).sum = 0 := by
    simp only [List.map_map, Function.comp_def]
    simp
  rw [hfst, hsnd] at houth
  have hout512 : out.length = 512 := by
    rw [houtlen]
    norm_num
  simp only [computeFFT, hwin, hP, hpad, hfft, calculateFrequencies,
    calculateMagnitudesAndPhases, hout512]
  rw [if_neg (by norm_num), if_neg (by norm_num)]
  refine ⟨_, rfl, by simp, ?_⟩
  rw [List.getD_eq_getElem?_getD, List.getElem?_map,
    List.getElem?_range (by norm_num : (0 : ℕ) < 512 / 2)]
  simp only [Option.map_some', Option.getD_some]
  rw [getD_zero_of_head? out _ _ houth]
  norm_num

end FFTProcessor

namespace SpectralAnalyzer

open FFTProcessor

/-- The Hanning windowing of a constant 512-sample segment, written
out. -/
theorem _applyWindow_replicate (c : ℝ) :
    _applyWindow (List.replicate 512 c) "hanning" =
      (List.range 512).map fun (i : ℕ) =>
        c * (0.5 * (1 - Real.cos (2 * π * i / 511))) := by
  rw [_applyWindow]
  simp only [List.length_replicate]
  apply List.map_congr_left
  intro i hi
  rw [List.getD_eq_getElem?_getD, List.getElem?_replicate,
    if_pos (List.mem_range.mp hi), Option.getD_some, if_pos trivial]
  norm_num

/-- Lower and upper bounds for the Hanning-windowed constant segment
sum: the window weights lie in `[0, 1]` and the weight at `i = 128` is
at least `1/2` (its cosine is non-positive there). -/
theorem hann_sum_bounds (c : ℝ) (hc : 0 < c) :
    c * (1 / 2) ≤ ((List.range 512).map fun (i : ℕ) =>
      c * (0.5 * (1 - Real.cos (2 * π * i / 511)))).sum ∧
    ((List.range 512).map fun (i : ℕ) =>
      c * (0.5 * (1 - Real.cos (2 * π * i / 511)))).sum ≤ 512 * c := by
  rw [sum_map_range_eq_finset]
  have hnonneg : ∀ i ∈ Finset.range 512,
      0 ≤ c * (0.5 * (1 - Real.cos (2 * π * (i : ℝ) / 511))) := by
    intro i _
    have := Real.cos_le_one (2 * π * (i : ℝ) / 511)
    nlinarith
  constructor
  · have hcos : Real.cos (2 * π * ((128 : ℕ) : ℝ) / 511) ≤ 0 := by
      have hπ := Real.pi_pos
      apply Real.cos_nonpos_of_pi_div_two_le_of_le
      · rw [show ((128 : ℕ) : ℝ) = 128 by norm_num]
        nlinarith
      · rw [show ((128 : ℕ) : ℝ) = 128 by norm_num]
        nlinarith
    have h128 : c * (1 / 2) ≤
        c * (0.5 * (1 - Real.cos (2 * π * ((128 : ℕ) : ℝ) / 511))) := by
      nlinarith
    exact h128.trans (Finset.single_le_sum hnonneg
      (by norm_num : (128 : ℕ) ∈ Finset.range 512))
  · have hbound : ∀ i ∈ Finset.range 512,
        c * (0.5 * (1 - Real.cos (2 * π * (i : ℝ) / 511))) ≤ c := by
      intro i _
      have := Real.neg_one_le_cos (2 * π * (i : ℝ) / 511)
      nlinarith
    calc (∑ i ∈ Finset.range 512,
          c * (0.5 * (1 - Real.cos (2 * π * (i : ℝ) / 511))))
        ≤ (Finset.range 512).card • c :=
          Finset.sum_le_card_nsmul _ _ _ hbound
      _ = 512 * c := by
          simp [nsmul_eq_mul]

end SpectralAnalyzer

namespace SpectralAnalyzer

open FFTProcessor

theorem filterMap_ne_nil {α β : Type} (F : α → Option β) (l : List α)
    (a : α) (ha : a ∈ l) (b : β) (hb : F a = some b) :
    l.filterMap F ≠ [] := by
  intro h
  have hmem : b ∈ l.filterMap F := List.mem_filterMap.mpr ⟨a, ha, hb⟩
  rw [h] at hmem
  cases hmem

/-- Each spectrogram segment of full frame length is processed
successfully into a dB row. -/
theorem spectro_F_some (cfg : AnalyzerConfig) (segment : List ℝ)
    (hlen : segment.length = cfg.fftSize) (h2 : 2 ≤ cfg.fftSize) :
    ∃ row, (match computeFFT (_applyWindow segment "hanning")
        { windowType := "none", sampleRate := (cfg.fftSize : ℝ),
          peakThreshold := 0 } with
      | none => none
      | some result =>
        some ((result.magnitudes.take (cfg.fftSize / 2)).map
          fun magnitude =>
            if magnitude ≤ 1 / 10 ^ 10 then -100
            else 20 * Real.logb 10 magnitude)) = some row := by
  have hw2 : 2 ≤ (_applyWindow segment "hanning").length := by
    rw [_applyWindow_length, hlen]
    exact h2
  obtain ⟨res, hres, -, -, -⟩ := computeFFT_shape _ _ hw2
  rw [hres]
  exact ⟨_, rfl⟩

/-- With the constructor configuration, `computeSpectrogram` succeeds on
every signal whenever the sample rate is nonzero. -/
theorem computeSpectrogram_cfg512_some (signal : List ℝ)
    (sampleRate : ℝ) (h : sampleRate ≠ 0) :
    ∃ mat, computeSpectrogram cfg512 signal sampleRate = some mat := by
  simp only [computeSpectrogram, if_neg h]
  generalize (if signal.length < cfg512.fftSize then
    signal ++ List.replicate (cfg512.fftSize - signal.length) 0
    else signal) = padded
  have hseg := _segmentSignal_cfg512_ne_nil padded
  rw [if_neg hseg]
  obtain ⟨seg0, hseg0⟩ := List.exists_mem_of_ne_nil _ hseg
  have hlen0 : seg0.length = cfg512.fftSize :=
    _segmentSignal_frame_length _ _ _ hseg0
  obtain ⟨row0, hrow0⟩ := spectro_F_some cfg512 seg0 hlen0
    (by norm_num [cfg512])
  rw [if_neg (filterMap_ne_nil _ _ seg0 hseg0 row0 hrow0)]
  exact ⟨_, rfl⟩

/-- Witness for the amended C3 at the all-zero 512-sample signal with
sample rate 1. -/
theorem claim_C3_spectrogram_db_bound_witness :
    ∃ mat, computeSpectrogram cfg512 (List.replicate 512 (0 : ℝ)) 1 =
        some mat ∧
      ∀ row ∈ mat.data, ∀ x ∈ row, (-200 : ℝ) < x := by
  obtain ⟨mat, hmat⟩ := computeSpectrogram_cfg512_some
    (List.replicate 512 (0 : ℝ)) 1 one_ne_zero
  exact ⟨mat, hmat, claim_C3_spectrogram_db_bound cfg512 _ 1 mat hmat⟩

end SpectralAnalyzer

namespace SpectralAnalyzer

open FFTProcessor

set_option maxRecDepth 8000 in
/-- Counterexample to C3 as stated: for the constant signal of 512
samples of `1e-6` at sample rate 1, the spectrogram's bin-0 magnitude of
the first frame lies strictly between `1e-10` (so it is not floored) and
`1e-5` (so its dB value `20·log10(m)` is strictly below `-100`).  The
matrix therefore contains a dB value smaller than `-100`. -/
theorem claim_C3_counterexample :
    ∃ mat, computeSpectrogram cfg512
        (List.replicate 512 ((1 : ℝ) / 1000000)) 1 = some mat ∧
      ∃ row ∈ mat.data, ∃ x ∈ row, x < -100 := by
  have hwin := _applyWindow_replicate ((1 : ℝ) / 1000000)
  have hwlen : ((List.range 512).map fun (i : ℕ) =>
      (1 : ℝ) / 1000000 * (0.5 * (1 - Real.cos (2 * π * i / 511)))).length
      = 512 := by simp
  obtain ⟨res, hres, hmlen, hm0⟩ := computeFFT_bin0 _
    ((cfg512.fftSize : ℝ)) hwlen
  obtain ⟨hSlo, hShi⟩ := hann_sum_bounds ((1 : ℝ) / 1000000)
    (by norm_num)
  have hS0 : 0 ≤ ((List.range 512).map fun (i : ℕ) =>
      (1 : ℝ) / 1000000 * (0.5 * (1 - Real.cos (2 * π * i / 511)))).sum :=
    by linarith
  have hm0' : res.magnitudes.getD 0 0 =
      ((List.range 512).map fun (i : ℕ) =>
        (1 : ℝ) / 1000000 *
          (0.5 * (1 - Real.cos (2 * π * i / 511)))).sum / 512 := by
    rw [hm0]
    rw [show ((List.range 512).map fun (i : ℕ) =>
        (1 : ℝ) / 1000000 * (0.5 * (1 - Real.cos (2 * π * i / 511)))).sum *
        ((List.range 512).map fun (i : ℕ) =>
        (1 : ℝ) / 1000000 * (0.5 * (1 - Real.cos (2 * π * i / 511)))).sum
        + 0 * 0 =
        ((List.range 512).map fun (i : ℕ) =>
        (1 : ℝ) / 1000000 * (0.5 * (1 - Real.cos (2 * π * i / 511)))).sum *
        ((List.range 512).map fun (i : ℕ) =>
        (1 : ℝ) / 1000000 *
          (0.5 * (1 - Real.cos (2 * π * i / 511)))).sum from by ring]
    rw [Real.sqrt_mul_self hS0]
  have hm0lo : (1 : ℝ) / 1000000 * (1 / 2) / 512 ≤
      res.magnitudes.getD 0 0 := by
    rw [hm0']
    exact (div_le_div_iff_of_pos_right (by norm_num)).mpr hSlo
  have hm0hi : res.magnitudes.getD 0 0 ≤ (1 : ℝ) / 1000000 := by
    rw [hm0']
    have := (div_le_div_iff_of_pos_right
      (show (0 : ℝ) < 512 by norm_num)).mpr hShi
    calc _ ≤ (512 * ((1 : ℝ) / 1000000)) / 512 := this
      _ = (1 : ℝ) / 1000000 := by ring
  have hnotfloor : ¬ (res.magnitudes.getD 0 0 ≤ 1 / 10 ^ 10) := by
    rw [not_le]
    calc (1 : ℝ) / 10 ^ 10 < (1 : ℝ) / 1000000 * (1 / 2) / 512 := by
          norm_num
      _ ≤ _ := hm0lo
  have hm0pos : 0 < res.magnitudes.getD 0 0 :=
    lt_trans (by norm_num) (not_le.mp hnotfloor)
  have hxlt : (if res.magnitudes.getD 0 0 ≤ 1 / 10 ^ 10 then (-100 : ℝ)
      else 20 * Real.logb 10 (res.magnitudes.getD 0 0)) < -100 := by
    rw [if_neg hnotfloor]
    have hlb : Real.logb 10 (res.magnitudes.getD 0 0) < -5 := by
      rw [Real.logb_lt_iff_lt_rpow (by norm_num) hm0pos]
      rw [show ((-5 : ℝ)) = ((-5 : ℤ) : ℝ) by norm_num,
        Real.rpow_intCast]
      have h5 : ((10 : ℝ) ^ (-5 : ℤ)) = 1 / 10 ^ 5 := by
        norm_num [zpow_neg]
      rw [h5]
      calc res.magnitudes.getD 0 0 ≤ (1 : ℝ) / 1000000 := hm0hi
        _ < 1 / 10 ^ 5 := by norm_num
    linarith
  have hmem0 : res.magnitudes.getD 0 0 ∈ res.magnitudes := by
    have h0 : 0 < res.magnitudes.length := by
      rw [hmlen]
      norm_num
    rw [List.getD_eq_getElem?_getD, List.getElem?_eq_getElem h0,
      Option.getD_some]
    exact List.getElem_mem h0
  have htake : res.magnitudes.take (cfg512.fftSize / 2) =
      res.magnitudes := by
    rw [show cfg512.fftSize / 2 = res.magnitudes.length by
      rw [hmlen]; rfl, List.take_length]
  have hxin : (if res.magnitudes.getD 0 0 ≤ 1 / 10 ^ 10 then (-100 : ℝ)
      else 20 * Real.logb 10 (res.magnitudes.getD 0 0)) ∈
      (res.magnitudes.take (cfg512.fftSize / 2)).map
        (fun magnitude =>
          if magnitude ≤ 1 / 10 ^ 10 then -100
          else 20 * Real.logb 10 magnitude) := by
    rw [htake]
    exact List.mem_map.mpr ⟨res.magnitudes.getD 0 0, hmem0, rfl⟩
  have hF : (match computeFFT
      (_applyWindow (List.replicate 512 ((1 : ℝ) / 1000000)) "hanning")
      { windowType := "none", sampleRate := (cfg512.fftSize : ℝ),
        peakThreshold := 0 } with
    | none => none
    | some result =>
      some ((result.magnitudes.take (cfg512.fftSize / 2)).map
        fun magnitude =>
          if magnitude ≤ 1 / 10 ^ 10 then -100
          else 20 * Real.logb 10 magnitude)) =
      some ((res.magnitudes.take (cfg512.fftSize / 2)).map
        fun magnitude =>
          if magnitude ≤ 1 / 10 ^ 10 then -100
          else 20 * Real.logb 10 magnitude) := by
    rw [hwin, hres]
  have hseg0mem : List.replicate 512 ((1 : ℝ) / 1000000) ∈
      _segmentSignal cfg512 (List.replicate 512 ((1 : ℝ) / 1000000)) := by
    rw [_segmentSignal, if_pos (by rw [List.length_replicate]; norm_num [cfg512])]
    refine List.mem_map.mpr ⟨0, List.mem_range.mpr (by norm_num), ?_⟩
    rw [Nat.zero_mul, Nat.zero_min, List.drop_zero, zeroPadTo,
      List.length_replicate]
    norm_num [cfg512]
  simp only [computeSpectrogram]
  rw [if_neg (one_ne_zero)]
  rw [if_neg (show ¬ (List.replicate 512 ((1 : ℝ) / 1000000)).length <
    cfg512.fftSize by rw [List.length_replicate]; norm_num [cfg512])]
  have hdata_mem :
      ((res.magnitudes.take (cfg512.fftSize / 2)).map
        fun magnitude =>
          if magnitude ≤ 1 / 10 ^ 10 then -100
          else 20 * Real.logb 10 magnitude) ∈
      (_segmentSignal cfg512
        (List.replicate 512 ((1 : ℝ) / 1000000))).filterMap
        (fun segment =>
          match computeFFT (_applyWindow segment "hanning")
            { windowType := "none", sampleRate := (cfg512.fftSize : ℝ),
              peakThreshold := 0 } with
          | none => none
          | some result =>
            some ((result.magnitudes.take (cfg512.fftSize / 2)).map
              fun magnitude =>
                if magnitude ≤ 1 / 10 ^ 10 then -100
                else 20 * Real.logb 10 magnitude)) :=
    List.mem_filterMap.mpr ⟨_, hseg0mem, hF⟩
  rw [if_neg (_segmentSignal_cfg512_ne_nil _)]
  rw [if_neg (List.ne_nil_of_mem hdata_mem)]
  exact ⟨_, rfl, _, hdata_mem, _, hxin, hxlt⟩

end SpectralAnalyzer
